import Mathlib

/-!
Verification of the analytics aggregation and derivation engine of the
Meeting Summarizer repository.

The definitions below are a shallow embedding, translated from
`Meeting Summarizer/Advanced-analytics.py` (class `FreeAnalyticsEngine`) and
`Meeting Summarizer/CalenderIntegration.py` (class `FreeCalendarService`).
Python floats are modelled as rationals (`ℚ`), Python ints as `ℤ`/`ℕ`,
Python strings as `String`/`List Char` (the inputs of interest are ASCII),
and code that can raise a Python exception is modelled in the
`Except PyError` monad.
-/

/-- The Python exceptions that the embedded code can raise. -/
inductive PyError where
  | typeError : PyError
  | indexError : PyError
deriving DecidableEq

/-- Python list indexing `l[i]`: a negative index counts from the end of the
list; an index out of range raises `IndexError`. -/
def pyListIndex {α : Type} (l : List α) (i : ℤ) : Except PyError α :=
  let j : ℤ := if i < 0 then i + l.length else i
  if h : 0 ≤ j ∧ j.toNat < l.length then .ok (l.get ⟨j.toNat, h.2⟩)
  else .error .indexError

/-- Round a rational to the nearest integer, ties to even: the semantics of
Python `round` on an exactly represented value. -/
def roundHalfEven (q : ℚ) : ℤ :=
  if q - ⌊q⌋ < 1 / 2 then ⌊q⌋
  else if 1 / 2 < q - ⌊q⌋ then ⌊q⌋ + 1
  else if ⌊q⌋ % 2 = 0 then ⌊q⌋ else ⌊q⌋ + 1

/-- Python `round(q, 2)`. -/
def pyRound2 (q : ℚ) : ℚ := (roundHalfEven (q * 100) : ℚ) / 100

/-- Python `round(q, 1)`. -/
def pyRound1 (q : ℚ) : ℚ := (roundHalfEven (q * 10) : ℚ) / 10

/-- Python `len` applied to an `int` value raises `TypeError`.  It is used by
`_calculate_engagement`, which evaluates `len(metrics['unique_topics'])`
even though `_calculate_meeting_metrics` stores an `int` under that key. -/
def pyLenOfInt (_ : ℕ) : Except PyError ℕ := .error .typeError

/-- ASCII whitespace, as recognised by Python `str.split()`/`str.strip()`
on the inputs of interest. -/
def isSpaceChar (c : Char) : Bool := c == ' ' || c == '\t' || c == '\n' || c == '\r'

/-- The sentence terminators of the regex class `[.!?]`. -/
def isTermChar (c : Char) : Bool := c == '.' || c == '!' || c == '?'

/-- Split a character list at maximal runs of delimiter characters, keeping
the (possibly empty) pieces at both ends: the semantics of
`re.split(r'[D]+', text)` for a character class `D`.  Processing is a right
fold; the boolean component records whether the character just to the right
was a delimiter, so that a whole delimiter run produces a single break. -/
def splitRunsStep (p : Char → Bool) (c : Char) :
    Bool × List (List Char) → Bool × List (List Char)
  | (prevDelim, pieces) =>
    if p c then
      if prevDelim then (true, pieces) else (true, [] :: pieces)
    else
      match pieces with
      | [] => (false, [[c]])
      | piece :: rest => (false, (c :: piece) :: rest)

/-- See `splitRunsStep`. -/
def splitOnRuns (p : Char → Bool) (cs : List Char) : List (List Char) :=
  (cs.foldr (splitRunsStep p) (false, [[]])).2

/-- Python `str.split()` with no argument: the maximal runs of
non-whitespace characters. -/
def splitWS (cs : List Char) : List (List Char) :=
  (splitOnRuns isSpaceChar cs).filter (fun piece => ¬ piece.isEmpty)

/-- Python `str.strip()`: remove leading and trailing whitespace. -/
def stripChars (cs : List Char) : List Char :=
  ((cs.dropWhile isSpaceChar).reverse.dropWhile isSpaceChar).reverse

/-- Case-insensitive character comparison (ASCII), for `re.IGNORECASE`. -/
def lowerEq (a b : Char) : Bool := a.toLower == b.toLower

/-- Does `cs` start with the pattern characters `pat`, case-insensitively? -/
def startsWithCI : List Char → List Char → Bool
  | [], _ => true
  | _ :: _, [] => false
  | p :: ps, c :: cs => lowerEq p c && startsWithCI ps cs

/-- Does `cs` start with exactly the characters `pat`? -/
def startsWithPlain : List Char → List Char → Bool
  | [], _ => true
  | _ :: _, [] => false
  | p :: ps, c :: cs => p == c && startsWithPlain ps cs

/-- Does `cs` contain `needle` as a contiguous run?  The semantics of the
Python substring test `needle in cs`. -/
def containsSub (needle : List Char) : List Char → Bool
  | [] => needle.isEmpty
  | c :: cs => startsWithPlain needle (c :: cs) || containsSub needle cs

/-- Greedy backtracking for a regex of the form `lit([^D]+)suffix`: try the
longest capture first (length `k`, scanning downward), requiring the text
after the capture to start with `suffix` (case-insensitively).  `rest` is
the text just after `lit`; the capture is always a prefix of the maximal
run of non-excluded characters, whose length bounds `k`. -/
def greedyCapAux (suffix rest : List Char) : ℕ → Option (List Char × List Char)
  | 0 => none
  | k + 1 =>
    if startsWithCI suffix (rest.drop (k + 1)) then
      some (rest.take (k + 1), rest.drop (k + 1 + suffix.length))
    else greedyCapAux suffix rest k

/-- Try to match `lit([^D]+)suffix` at the start of `cs` (case-insensitive,
`D` the excluded class `excl`).  On success, return the capture and the
text after the whole match. -/
def tryMatch (lit suffix : List Char) (excl : Char → Bool) (cs : List Char) :
    Option (List Char × List Char) :=
  if startsWithCI lit cs then
    let rest := cs.drop lit.length
    let run := rest.takeWhile (fun c => ¬ excl c)
    if suffix.isEmpty then
      if run.isEmpty then none else some (run, rest.drop run.length)
    else greedyCapAux suffix rest run.length
  else none

/-- The scanning loop of `re.findall` for a pattern `lit([^D]+)suffix`:
leftmost non-overlapping matches, advancing by one character when no match
starts at the current position.  `fuel` only bounds the recursion; every
step consumes at least one character, so `fuel = cs.length` is enough. -/
def findallAux (lit suffix : List Char) (excl : Char → Bool) :
    ℕ → List Char → List (List Char)
  | 0, _ => []
  | _, [] => []
  | fuel + 1, c :: cs =>
    match tryMatch lit suffix excl (c :: cs) with
    | some (cap, rest) => cap :: findallAux lit suffix excl fuel rest
    | none => findallAux lit suffix excl fuel cs

/-- `re.findall(lit([^.!?]+)suffix, text, re.IGNORECASE)`, returning the
capture groups. -/
def findallCap (lit suffix : String) (text : String) : List String :=
  (findallAux lit.data suffix.data isTermChar text.data.length text.data).map
    (fun cs => String.mk cs)

/-- Stable insertion, ascending: used to model Python `sorted` on numbers. -/
def insertAsc (x : ℚ) : List ℚ → List ℚ
  | [] => [x]
  | y :: ys => if y ≤ x then y :: insertAsc x ys else x :: y :: ys

/-- Python `sorted` on a list of numbers (ascending). -/
def sortAsc (l : List ℚ) : List ℚ := l.foldr insertAsc []

/-- Stable insertion by descending key: an earlier element precedes later
elements with an equal key, matching Python
`sorted(key=..., reverse=True)`. -/
def insertDescBy {α : Type} (key : α → ℕ) (x : α) : List α → List α
  | [] => [x]
  | y :: ys => if key x < key y then y :: insertDescBy key x ys else x :: y :: ys

/-- Python `sorted(l, key=key, reverse=True)` (stable). -/
def sortDescBy {α : Type} (key : α → ℕ) (l : List α) : List α :=
  l.foldr (insertDescBy key) []

/-- Python `enumerate(l, i)`. -/
def enumerate {α : Type} (i : ℕ) : List α → List (ℕ × α)
  | [] => []
  | x :: xs => (i, x) :: enumerate (i + 1) xs

/-- One update of a Python dict of counts: increment the entry of `w` if it
is present, otherwise append a new entry with count 1. -/
def countOccStep (w : String) : List (String × ℕ) → List (String × ℕ)
  | [] => [(w, 1)]
  | (v, n) :: rest =>
    if v = w then (v, n + 1) :: rest else (v, n) :: countOccStep w rest

/-- Python `collections.Counter` built from a list: counts keyed in
first-occurrence order, as a Python dict would hold them. -/
def countOcc (ws : List String) : List (String × ℕ) :=
  ws.foldl (fun acc w => countOccStep w acc) []

/-- One diarization segment of the meeting record: `speaker`, `start_time`,
`end_time`, `duration`, as in the `speaker_analysis.segments` dictionaries
consumed by `FreeAnalyticsEngine`. -/
structure Segment where
  speaker : String
  start_time : ℚ
  end_time : ℚ
  duration : ℚ
deriving DecidableEq

/-- The meeting record consumed by the engine: `transcript.text`,
`processing_metadata.audio_duration`, `speaker_analysis.speaker_count`,
`speaker_analysis.segments`, and the `llm_summary.summary` used by the
calendar service. -/
structure MeetingData where
  transcript_text : String
  audio_duration : ℚ
  speaker_count : ℕ
  segments : List Segment
  summary_text : String
deriving DecidableEq

/-- `_extract_topics`: the matches of `\b[a-z]{4,}\b` on the lowercased
text are exactly the maximal word-character runs that consist of at least
four lowercase letters; they are stop-word filtered, counted, and the keys
of the ten most common counts are returned. -/
def commonWords : List String :=
  ["this", "that", "with", "have", "from", "they", "what", "about", "would"]

/-- Word characters of the regex `\b` boundary (`[a-zA-Z0-9_]`). -/
def isWordChar (c : Char) : Bool := c.isAlphanum || c == '_'

/-- Lowercase ASCII letters, the class `[a-z]`. -/
def isLowerAlpha (c : Char) : Bool := 'a' ≤ c && c ≤ 'z'

/-- See `commonWords`. -/
def extract_topics (text : String) : List String :=
  let lowered := text.data.map Char.toLower
  let runs := (splitOnRuns (fun c => ¬ isWordChar c) lowered).filter
    (fun piece => ¬ piece.isEmpty)
  let words := runs.filter (fun r => 4 ≤ r.length && r.all isLowerAlpha)
  let kept := words.filter (fun w => ¬ commonWords.contains (String.mk w))
  ((sortDescBy (fun p => p.2) (countOcc (kept.map String.mk))).take 10).map
    (fun p => p.1)

/-- The output dictionary of `_calculate_meeting_metrics`. -/
structure MeetingMetrics where
  duration_minutes : ℚ
  word_count : ℕ
  sentence_count : ℕ
  words_per_minute : ℚ
  speaker_count : ℕ
  unique_topics : ℕ
deriving DecidableEq

/-- `_calculate_meeting_metrics`. -/
def calculate_meeting_metrics (data : MeetingData) : MeetingMetrics :=
  let transcript := data.transcript_text
  let duration := data.audio_duration
  let words := splitWS transcript.data
  let sentences := splitOnRuns isTermChar transcript.data
  { duration_minutes := pyRound2 (duration / 60)
    word_count := words.length
    sentence_count := (sentences.filter (fun s => 0 < (stripChars s).length)).length
    words_per_minute := (words.length : ℚ) / max (duration / 60) 1
    speaker_count := data.speaker_count
    unique_topics := (extract_topics transcript).length }

/-- One update of the `speaker_times` dict of `_analyze_participants`:
`speaker_times[speaker] = speaker_times.get(speaker, 0) + duration`,
preserving insertion order. -/
def addTime (sp : String) (d : ℚ) : List (String × ℚ) → List (String × ℚ)
  | [] => [(sp, d)]
  | (s, t) :: rest =>
    if s = sp then (s, t + d) :: rest else (s, t) :: addTime sp d rest

/-- The `speaker_times` dict of `_analyze_participants`, aggregated over
the segments in order. -/
def speakerTimes (segs : List Segment) : List (String × ℚ) :=
  segs.foldl (fun acc s => addTime s.speaker s.duration acc) []

/-- `sum(speaker_times.values())`. -/
def totalSpeakingTime (segs : List Segment) : ℚ :=
  ((speakerTimes segs).map (fun p => p.2)).sum

/-- The sum of `_calculate_participation_balance`:
`sum((2 * i - n - 1) * time for i, time in enumerate(sorted_times, 1))`. -/
def giniSum (n : ℤ) : ℤ → List ℚ → ℚ
  | _, [] => 0
  | i, t :: ts => ((2 * i - n - 1 : ℤ) : ℚ) * t + giniSum n (i + 1) ts

/-- `_calculate_participation_balance`. -/
def calculate_participation_balance (speaker_times : List (String × ℚ)) : ℚ :=
  if speaker_times.isEmpty then 1 / 2
  else
    let times := speaker_times.map (fun p => p.2)
    let total := times.sum
    if total = 0 then 1 / 2
    else
      let sorted_times := sortAsc times
      let n := sorted_times.length
      let gini := giniSum n 1 sorted_times / ((n : ℚ) * sorted_times.sum)
      1 - gini

/-- `max(speaker_times.items(), key=lambda x: x[1])[0]`: Python `max`
returns the first maximal item, so ties go to the earliest speaker. -/
def dominantSpeaker (times : List (String × ℚ)) : String :=
  match times with
  | [] => "Unknown"
  | x :: xs => (xs.foldl (fun best y => if best.2 < y.2 then y else best) x).1

/-- The result of `_analyze_participants`: either the
`{"analysis": "Insufficient speaker data"}` marker, or the speaking time
distribution (speaker, seconds, percentage), the dominant speaker, and the
participation balance. -/
inductive ParticipantInsights where
  | insufficient : ParticipantInsights
  | ok : List (String × ℚ × ℚ) → String → ℚ → ParticipantInsights
deriving DecidableEq

/-- `_analyze_participants`. -/
def analyze_participants (data : MeetingData) : ParticipantInsights :=
  if data.segments.isEmpty then .insufficient
  else
    let times := speakerTimes data.segments
    let total := (times.map (fun p => p.2)).sum
    .ok
      (times.map (fun p =>
        (p.1, p.2, if 0 < total then pyRound2 (p.2 / total * 100) else 0)))
      (dominantSpeaker times)
      (calculate_participation_balance times)

/-- `participants.get('participation_balance', default)`: the insufficient
marker dict holds no such key. -/
def ParticipantInsights.balanceOr (p : ParticipantInsights) (default : ℚ) : ℚ :=
  match p with
  | .insufficient => default
  | .ok _ _ b => b

/-- `participants.get('speaking_time_distribution', {})` flattened to the
entry list, empty for the insufficient marker. -/
def ParticipantInsights.dist (p : ParticipantInsights) : List (String × ℚ × ℚ) :=
  match p with
  | .insufficient => []
  | .ok d _ _ => d

/-- The sum of the percentage fields of the speaking time distribution. -/
def pctSum (p : ParticipantInsights) : ℚ := ((p.dist).map (fun e => e.2.2)).sum

/-- A topic cluster of `_cluster_topics`. -/
structure TopicCluster where
  topic : String
  representative_sentence : String
  frequency : ℕ
deriving DecidableEq

/-- The greedy merge step of `_cluster_topics`: increment the frequency of
the first existing cluster whose key-token set shares at least one token,
otherwise append the new cluster. -/
def mergeCluster : List TopicCluster → TopicCluster → List TopicCluster
  | [], t => [t]
  | e :: es, t =>
    if (splitWS t.topic.data).any (fun w => (splitWS e.topic.data).contains w) then
      { e with frequency := e.frequency + 1 } :: es
    else e :: mergeCluster es t

/-- `_cluster_topics`. -/
def cluster_topics (text : String) : List TopicCluster :=
  let sentences := ((splitOnRuns isTermChar text.data).map stripChars).filter
    (fun s => 10 < s.length)
  let topics := (sentences.take 20).filterMap (fun sentence =>
    let words := splitWS (sentence.map Char.toLower)
    if 4 ≤ words.length then
      some { topic := String.intercalate " "
               (((words.filter (fun w => 3 < w.length)).take 3).map
                 (fun w => String.mk w))
             representative_sentence := String.mk (sentence.take 100) ++ "..."
             frequency := 1 }
    else none)
  (sortDescBy (fun c => c.frequency) (topics.foldl mergeCluster [])).take 5

/-- The fixed word lists of `_analyze_sentiment_trend`. -/
def positiveWords : List String :=
  ["good", "great", "excellent", "positive", "success", "happy"]

/-- See `positiveWords`. -/
def negativeWords : List String :=
  ["bad", "poor", "negative", "problem", "issue", "concern"]

/-- `_analyze_sentiment_trend`: per-word substring containment in the
lowercased text, simple majority, ties to neutral. -/
def analyze_sentiment_trend (text : String) : String :=
  let lowered := text.data.map Char.toLower
  let positive_count := (positiveWords.filter
    (fun w => containsSub w.data lowered)).length
  let negative_count := (negativeWords.filter
    (fun w => containsSub w.data lowered)).length
  if negative_count < positive_count then "positive"
  else if positive_count < negative_count then "negative"
  else "neutral"

/-- One entry of the `_track_keyword_evolution` output. -/
structure EvolutionEntry where
  position : ℤ
  keywords : List String
  sentence_preview : String
deriving DecidableEq

/-- Build one evolution entry from a sampled sentence: up to three tokens
longer than four characters and a 50-character preview. -/
def evolutionEntry (point : ℤ) (sentence : List Char) : EvolutionEntry :=
  { position := point
    keywords := (((splitWS sentence).filter (fun w => 4 < w.length)).take 3).map
      (fun w => String.mk w)
    sentence_preview :=
      if 50 < sentence.length then String.mk (sentence.take 50) ++ "..."
      else String.mk sentence }

/-- The stripped, non-empty sentences that `_track_keyword_evolution`
samples from. -/
def keSentences (text : String) : List (List Char) :=
  ((splitOnRuns isTermChar text.data).map stripChars).filter
    (fun s => ¬ s.isEmpty)

/-- The sampling loop of `_track_keyword_evolution`: a point is used only
when `point < len(sentences)` as a signed comparison, and the subsequent
Python indexing can still raise `IndexError` for a negative point. -/
def keywordLoop (sentences : List (List Char)) :
    List ℤ → Except PyError (List EvolutionEntry)
  | [] => .ok []
  | p :: ps =>
    if p < (sentences.length : ℤ) then do
      let sentence ← pyListIndex sentences p
      let rest ← keywordLoop sentences ps
      pure (evolutionEntry p sentence :: rest)
    else keywordLoop sentences ps

/-- `_track_keyword_evolution`. -/
def track_keyword_evolution (text : String) : Except PyError (List EvolutionEntry) :=
  let sentences := keSentences text
  let n : ℤ := sentences.length
  keywordLoop sentences [0, n / 3, 2 * n / 3, n - 1]

/-- The five decision regex patterns of `_identify_decisions`, applied in
order; the concatenated captures are truncated to the first five. -/
def identify_decisions (text : String) : List String :=
  (findallCap "decided to " "" text ++
   findallCap "agreed that " "" text ++
   findallCap "will " "" text ++
   findallCap "should " "" text ++
   findallCap "going to " "" text).take 5

/-- The output dictionary of `_analyze_content`. -/
structure ContentAnalysis where
  topic_clusters : List TopicCluster
  sentiment_trend : String
  keyword_evolution : List EvolutionEntry
  question_count : ℕ
  decision_points : List String
deriving DecidableEq

/-- `_analyze_content`: the dict entries are evaluated in order, so the
keyword-evolution `IndexError` propagates out of this analyzer. -/
def analyze_content (data : MeetingData) : Except PyError ContentAnalysis := do
  let transcript := data.transcript_text
  let clusters := cluster_topics transcript
  let sentiment := analyze_sentiment_trend transcript
  let evolution ← track_keyword_evolution transcript
  pure
    { topic_clusters := clusters
      sentiment_trend := sentiment
      keyword_evolution := evolution
      question_count := (transcript.data.filter (fun c => c == '?')).length
      decision_points := identify_decisions transcript }

/-- `max([s.get('end_time', 0) for s in segments] or [1])`: for a nonempty
segment list, the maximum end time; the `[1]` branch is only reached with
no segments. -/
def maxEndTime (segs : List Segment) : ℚ :=
  match segs with
  | [] => 1
  | s :: rest => rest.foldl (fun acc t => max acc t.end_time) s.end_time

/-- `np.linspace(start, stop, num)`: `num` evenly spaced boundary points. -/
def linspace (start stop : ℚ) (num : ℕ) : List ℚ :=
  (List.range num).map (fun (j : ℕ) => start + (j : ℚ) * (stop - start) / ((num : ℚ) - 1))

/-- The ten bin boundaries `np.linspace(0, maxEndTime, 10)` of
`_analyze_temporal_patterns`. -/
def timeBins (segs : List Segment) : List ℚ := linspace 0 (maxEndTime segs) 10

/-- One bin of `_analyze_temporal_patterns`: the summed duration of the
segments whose start time lies in `[lo, hi)`. -/
def binActivity (segs : List Segment) (lo hi : ℚ) : ℚ :=
  ((segs.filter (fun s => decide (lo ≤ s.start_time ∧ s.start_time < hi))).map
    (fun s => s.duration)).sum

/-- The nine bin activities of `_analyze_temporal_patterns`. -/
def activityByTime (segs : List Segment) : List ℚ :=
  (List.range 9).map (fun i =>
    binActivity segs ((timeBins segs).getD i 0) ((timeBins segs).getD (i + 1) 0))

/-- The scanning loop of `np.argmax`: the first index of the maximum, with
a later index taken only on a strictly larger value. -/
def argmaxFrom (best : ℕ × ℚ) : ℕ → List ℚ → ℕ × ℚ
  | _, [] => best
  | i, x :: xs => if best.2 < x then argmaxFrom (i, x) (i + 1) xs else argmaxFrom best (i + 1) xs

/-- `np.argmax` on a list (0 on the empty list, which does not occur here). -/
def argmaxIdx (l : List ℚ) : ℕ :=
  match l with
  | [] => 0
  | x :: xs => (argmaxFrom (0, x) 1 xs).1

/-- The result of `_analyze_temporal_patterns`: either the
`{"analysis": "No temporal data available"}` marker or the activity list,
the peak activity time, and the constant trend label. -/
inductive TemporalPatterns where
  | noData : TemporalPatterns
  | ok : List ℚ → ℚ → String → TemporalPatterns
deriving DecidableEq

/-- `_analyze_temporal_patterns`. -/
def analyze_temporal_patterns (data : MeetingData) : TemporalPatterns :=
  if data.segments.isEmpty then .noData
  else
    let activity := activityByTime data.segments
    .ok activity ((timeBins data.segments).getD (argmaxIdx activity) 0) "stable"

/-- `temporal.get('activity_over_time', [])`. -/
def TemporalPatterns.activity (t : TemporalPatterns) : List ℚ :=
  match t with
  | .noData => []
  | .ok a _ _ => a

/-- `_generate_engagement_recommendations`. -/
def generate_engagement_recommendations (score : ℚ) : List String :=
  if score < 3 / 10 then
    ["Consider shorter, more focused meetings",
     "Encourage more participant interaction",
     "Prepare agenda to stay on topic"]
  else if score < 7 / 10 then
    ["Good meeting structure, could improve participation balance",
     "Consider time management for more efficient discussions"]
  else
    ["Excellent meeting engagement",
     "Maintain current participation levels"]

/-- The output dictionary of `_calculate_engagement`. -/
structure EngagementResult where
  overall_score : ℚ
  content_richness : ℚ
  participation_balance : ℚ
  topic_diversity : ℚ
  recommendations : List String
deriving DecidableEq

/-- `_calculate_engagement`: recomputes the metrics and the participant
insights, then evaluates `len(metrics['unique_topics'])` where
`unique_topics` holds an `int`, so Python raises `TypeError` before any
score is produced. -/
def calculate_engagement (data : MeetingData) : Except PyError EngagementResult := do
  let metrics := calculate_meeting_metrics data
  let participants := analyze_participants data
  let word_count_score : ℚ := min ((metrics.word_count : ℚ) / 500) 1
  let speaker_balance := participants.balanceOr (1 / 2)
  let topicsLen ← pyLenOfInt metrics.unique_topics
  let topic_diversity : ℚ := min ((topicsLen : ℚ) / 10) 1
  let engagement_score := (word_count_score + speaker_balance + topic_diversity) / 3
  pure
    { overall_score := pyRound1 (engagement_score * 100)
      content_richness := pyRound1 (word_count_score * 100)
      participation_balance := pyRound1 (speaker_balance * 100)
      topic_diversity := pyRound1 (topic_diversity * 100)
      recommendations := generate_engagement_recommendations engagement_score }

/-- The chart-ready reshaping of `_generate_visualizations`; the radar
scores are the hardcoded placeholders of the source. -/
structure Visualizations where
  pie_labels : List String
  pie_values : List ℚ
  timeline_points : List ℕ
  activity_levels : List ℚ
  radar_metrics : List String
  radar_scores : List ℚ
deriving DecidableEq

/-- `_generate_visualizations`. -/
def generate_visualizations (data : MeetingData) : Visualizations :=
  let participants := analyze_participants data
  let temporal := analyze_temporal_patterns data
  { pie_labels := (participants.dist).map (fun e => e.1)
    pie_values := (participants.dist).map (fun e => e.2.2)
    timeline_points := List.range (temporal.activity).length
    activity_levels := temporal.activity
    radar_metrics := ["Content", "Participation", "Topics"]
    radar_scores := [70, 65, 80] }

/-- The aggregate report of `generate_comprehensive_analytics`. -/
structure Analytics where
  meeting_metrics : MeetingMetrics
  participant_insights : ParticipantInsights
  content_analysis : ContentAnalysis
  temporal_patterns : TemporalPatterns
  engagement_score : EngagementResult
  visualizations : Visualizations
deriving DecidableEq

/-- `generate_comprehensive_analytics`: the report dictionary evaluates its
entries in declaration order, so the first exception raised by an analyzer
aborts the whole pipeline. -/
def generate_comprehensive_analytics (data : MeetingData) : Except PyError Analytics := do
  let metrics := calculate_meeting_metrics data
  let participants := analyze_participants data
  let content ← analyze_content data
  let temporal := analyze_temporal_patterns data
  let engagement ← calculate_engagement data
  let viz := generate_visualizations data
  pure
    { meeting_metrics := metrics
      participant_insights := participants
      content_analysis := content
      temporal_patterns := temporal
      engagement_score := engagement
      visualizations := viz }

/-- A calendar event candidate of `extract_events_free`.  The `event_id`
(a fresh UUID), `suggested_date` (derived from the wall clock
`datetime.now()`) and `suggested_time` fields are environment-dependent or
unconstrained by the specified properties and are not modelled. -/
structure EventCandidate where
  title : String
  description : String
  duration_minutes : ℕ
  confidence : ℚ
  type : String
  participants : List String
deriving DecidableEq

/-- The concatenated captures of the four topic patterns of
`_extract_event_topics`, in pattern order. -/
def topic_pattern_matches (text : String) : List String :=
  findallCap "follow up on " "" text ++
  findallCap "discuss " " next" text ++
  findallCap "review " "" text ++
  findallCap "meet about " "" text

/-- `_extract_event_topics`: fall back to the generic topics when no
pattern matched, then keep at most five. -/
def extract_event_topics (text : String) : List String :=
  let topics := topic_pattern_matches text
  (if topics.isEmpty then ["Action Items", "Project Update", "Team Discussion"]
   else topics).take 5

/-- `_generate_event_title`. -/
def generate_event_title (topic : String) : String :=
  let lowered := topic.data.map Char.toLower
  if containsSub "follow".data lowered then "Follow-up: " ++ topic
  else if containsSub "review".data lowered then "Review: " ++ topic
  else "Discussion: " ++ topic

/-- `extract_events_free`: one candidate per topic, at most three, with
confidence `0.7 - 0.1 * i`. -/
def extract_events_free (data : MeetingData) : List EventCandidate :=
  let transcript := data.transcript_text
  let topics := extract_event_topics transcript
  (enumerate 0 (topics.take 3)).map (fun p =>
    { title := generate_event_title p.2
      description := "Automatically generated from meeting discussion about: " ++ p.2
      duration_minutes := 30
      confidence := 7 / 10 - (p.1 : ℚ) * (1 / 10)
      type := "suggested"
      participants := [] })

/-- The degenerate meeting record: empty transcript, zero duration, no
segments; `speaker_count` takes the dictionary-lookup default 1. -/
def emptyMeetingData : MeetingData :=
  { transcript_text := ""
    audio_duration := 0
    speaker_count := 1
    segments := []
    summary_text := "" }

/-- The worked example record of the specification: two speakers with a
perfect 60/60 second split of a 120 second meeting. -/
def exampleMeetingData : MeetingData :=
  { transcript_text :=
      "We decided to ship the feature. Should we also review the budget? Great work everyone."
    audio_duration := 120
    speaker_count := 2
    segments :=
      [{ speaker := "S1", start_time := 0, end_time := 60, duration := 60 },
       { speaker := "S2", start_time := 60, end_time := 120, duration := 60 }]
    summary_text := "" }

/-- A 1-second segment for a named speaker. -/
def unitSegment (name : String) : Segment :=
  { speaker := name, start_time := 0, end_time := 1, duration := 1 }

/-- Thirty-one distinct speakers with one 1-second segment each. -/
def segments31 : List Segment :=
  [unitSegment "P01", unitSegment "P02", unitSegment "P03", unitSegment "P04",
   unitSegment "P05", unitSegment "P06", unitSegment "P07", unitSegment "P08",
   unitSegment "P09", unitSegment "P10", unitSegment "P11", unitSegment "P12",
   unitSegment "P13", unitSegment "P14", unitSegment "P15", unitSegment "P16",
   unitSegment "P17", unitSegment "P18", unitSegment "P19", unitSegment "P20",
   unitSegment "P21", unitSegment "P22", unitSegment "P23", unitSegment "P24",
   unitSegment "P25", unitSegment "P26", unitSegment "P27", unitSegment "P28",
   unitSegment "P29", unitSegment "P30", unitSegment "P31"]

/-- A meeting record with 31 equal speakers, on which the per-speaker
rounding errors of the speaking-time percentages accumulate to 0.13. -/
def meetingData31 : MeetingData :=
  { transcript_text := ""
    audio_duration := 31
    speaker_count := 31
    segments := segments31
    summary_text := "" }

theorem insertAsc_perm (x : ℚ) (l : List ℚ) : List.Perm (insertAsc x l) (x :: l) := by
  induction l with
  | nil => simp [insertAsc]
  | cons y ys ih =>
    by_cases h : y ≤ x
    · simpa [insertAsc, h] using ((ih.cons y).trans (List.Perm.swap x y ys))
    · simp [insertAsc, h]

theorem sortAsc_perm (l : List ℚ) : List.Perm (sortAsc l) l := by
  induction l with
  | nil => simp [sortAsc]
  | cons x xs ih =>
    exact (insertAsc_perm x (sortAsc xs)).trans (ih.cons x)

theorem sortAsc_length (l : List ℚ) : (sortAsc l).length = l.length :=
  (sortAsc_perm l).length_eq

theorem sortAsc_sum (l : List ℚ) : (sortAsc l).sum = l.sum :=
  (sortAsc_perm l).sum_eq

theorem mem_insertAsc {a x : ℚ} {l : List ℚ} :
    a ∈ insertAsc x l ↔ a = x ∨ a ∈ l := by
  rw [(insertAsc_perm x l).mem_iff]
  simp

theorem insertAsc_pairwise (x : ℚ) {l : List ℚ}
    (h : l.Pairwise (· ≤ ·)) : (insertAsc x l).Pairwise (· ≤ ·) := by
  induction l with
  | nil => simp [insertAsc]
  | cons y ys ih =>
    rcases List.pairwise_cons.mp h with ⟨hy, hys⟩
    by_cases hle : y ≤ x
    · rw [insertAsc, if_pos hle]
      refine List.pairwise_cons.mpr ⟨?_, ih hys⟩
      intro z hz
      rcases mem_insertAsc.mp hz with rfl | hz
      · exact hle
      · exact hy z hz
    · rw [insertAsc, if_neg hle]
      refine List.pairwise_cons.mpr ⟨?_, h⟩
      intro z hz
      rcases List.mem_cons.mp hz with rfl | hz
      · exact le_of_lt (lt_of_not_le hle)
      · exact le_trans (le_of_lt (lt_of_not_le hle)) (hy z hz)

theorem sortAsc_pairwise (l : List ℚ) : (sortAsc l).Pairwise (· ≤ ·) := by
  induction l with
  | nil => simp [sortAsc]
  | cons x xs ih => exact insertAsc_pairwise x ih

theorem length_mul_le_sum (l : List ℚ) (t : ℚ) (h : ∀ x ∈ l, t ≤ x) :
    (l.length : ℚ) * t ≤ l.sum := by
  induction l with
  | nil => simp
  | cons x xs ih =>
    have hx := h x (List.mem_cons_self x xs)
    have hxs := ih (fun y hy => h y (List.mem_cons_of_mem x hy))
    simp only [List.length_cons, List.sum_cons]
    push_cast
    nlinarith

theorem giniSum_succ_i (n : ℤ) (l : List ℚ) :
    ∀ i : ℤ, giniSum n (i + 1) l = giniSum n i l + 2 * l.sum := by
  induction l with
  | nil => intro i; simp [giniSum]
  | cons x xs ih =>
    intro i
    simp only [giniSum, List.sum_cons, ih (i + 1)]
    push_cast
    ring

theorem giniSum_succ_n (n : ℤ) (l : List ℚ) :
    ∀ i : ℤ, giniSum (n + 1) i l = giniSum n i l - l.sum := by
  induction l with
  | nil => intro i; simp [giniSum]
  | cons x xs ih =>
    intro i
    simp only [giniSum, List.sum_cons, ih (i + 1)]
    push_cast
    ring

theorem giniSum_nonneg : ∀ l : List ℚ, l.Pairwise (· ≤ ·) →
    0 ≤ giniSum l.length 1 l := by
  intro l
  induction l with
  | nil => intro _; simp [giniSum]
  | cons t ts ih =>
    intro h
    rcases List.pairwise_cons.mp h with ⟨ht, hts⟩
    have e1 : giniSum ((ts.length : ℤ) + 1) (1 + 1) ts =
        giniSum ((ts.length : ℤ) + 1) 1 ts + 2 * ts.sum :=
      giniSum_succ_i ((ts.length : ℤ) + 1) ts 1
    have e2 : giniSum ((ts.length : ℤ) + 1) 1 ts =
        giniSum (ts.length : ℤ) 1 ts - ts.sum :=
      giniSum_succ_n (ts.length : ℤ) ts 1
    have hlen : (((t :: ts).length : ℕ) : ℤ) = (ts.length : ℤ) + 1 := by
      push_cast [List.length_cons]
      ring
    have key : giniSum ((t :: ts).length : ℤ) 1 (t :: ts) =
        giniSum (ts.length : ℤ) 1 ts + (ts.sum - (ts.length : ℚ) * t) := by
      rw [hlen, giniSum, e1, e2]
      push_cast
      ring
    rw [key]
    have h1 := ih hts
    have h2 := length_mul_le_sum ts t ht
    linarith

theorem giniSum_le_max_coeff (n : ℤ) :
    ∀ (l : List ℚ) (i : ℤ), (∀ x ∈ l, 0 ≤ x) →
      giniSum n i l ≤ ((2 * (i + l.length - 1) - n - 1 : ℤ) : ℚ) * l.sum := by
  intro l
  induction l with
  | nil => intro i _; simp [giniSum]
  | cons x xs ih =>
    intro i h
    have hx := h x (List.mem_cons_self x xs)
    have hxs : ∀ y ∈ xs, (0 : ℚ) ≤ y := fun y hy => h y (List.mem_cons_of_mem x hy)
    have hsum : (0 : ℚ) ≤ xs.sum := List.sum_nonneg hxs
    have htail := ih (i + 1) hxs
    simp only [giniSum, List.sum_cons, List.length_cons]
    push_cast at htail ⊢
    nlinarith

theorem giniSum_replicate (n : ℤ) (t : ℚ) :
    ∀ (m : ℕ) (i : ℤ), giniSum n i (List.replicate m t) =
      t * m * (2 * i + m - n - 2) := by
  intro m
  induction m with
  | zero => intro i; simp [giniSum]
  | succ k ih =>
    intro i
    simp only [List.replicate_succ, giniSum, ih (i + 1)]
    push_cast
    ring

theorem giniSum_eq_finset (n : ℤ) :
    ∀ (l : List ℚ) (i : ℤ), giniSum n i l =
      ∑ k in Finset.range l.length, ((2 * (i + k) - n - 1 : ℤ) : ℚ) * l.getD k 0 := by
  intro l
  induction l with
  | nil => intro i; simp [giniSum]
  | cons x xs ih =>
    intro i
    rw [List.length_cons, Finset.sum_range_succ']
    simp only [giniSum, ih (i + 1), List.getD_cons_succ, List.getD_cons_zero]
    have hc : ∀ k ∈ Finset.range xs.length,
        ((2 * (i + ((k : ℕ) + 1 : ℕ)) - n - 1 : ℤ) : ℚ) * xs.getD k 0 =
        ((2 * ((i + 1) + k) - n - 1 : ℤ) : ℚ) * xs.getD k 0 := by
      intro k _
      push_cast
      ring_nf
    rw [Finset.sum_congr rfl hc]
    push_cast
    ring

theorem addTime_ne_nil (sp : String) (d : ℚ) (l : List (String × ℚ)) :
    addTime sp d l ≠ [] := by
  cases l with
  | nil => simp [addTime]
  | cons p rest =>
    obtain ⟨s, t⟩ := p
    by_cases h : s = sp <;> simp [addTime, h]

theorem foldl_addTime_ne_nil (segs : List Segment) :
    ∀ acc : List (String × ℚ), acc ≠ [] →
      segs.foldl (fun acc s => addTime s.speaker s.duration acc) acc ≠ [] := by
  induction segs with
  | nil => intro acc h; simpa using h
  | cons s rest ih =>
    intro acc _
    exact ih _ (addTime_ne_nil s.speaker s.duration acc)

theorem speakerTimes_ne_nil {segs : List Segment} (h : segs ≠ []) :
    speakerTimes segs ≠ [] := by
  cases segs with
  | nil => exact absurd rfl h
  | cons s rest =>
    unfold speakerTimes
    rw [List.foldl_cons]
    exact foldl_addTime_ne_nil rest _ (addTime_ne_nil s.speaker s.duration [])

theorem addTime_nonneg {sp : String} {d : ℚ} {l : List (String × ℚ)}
    (hd : 0 ≤ d) (hl : ∀ p ∈ l, 0 ≤ p.2) : ∀ p ∈ addTime sp d l, 0 ≤ p.2 := by
  induction l with
  | nil =>
    intro p hp
    simp only [addTime, List.mem_singleton] at hp
    simpa [hp] using hd
  | cons q rest ih =>
    obtain ⟨s, t⟩ := q
    have hq : (0 : ℚ) ≤ t := hl (s, t) (List.mem_cons_self _ _)
    have hrest : ∀ p ∈ rest, (0 : ℚ) ≤ p.2 :=
      fun p hp => hl p (List.mem_cons_of_mem _ hp)
    intro p hp
    by_cases h : s = sp
    · rw [addTime, if_pos h] at hp
      rcases List.mem_cons.mp hp with rfl | hp
      · simpa using add_nonneg hq hd
      · exact hrest p hp
    · rw [addTime, if_neg h] at hp
      rcases List.mem_cons.mp hp with rfl | hp
      · exact hq
      · exact ih hrest p hp

theorem calculate_participation_balance_eq {st : List (String × ℚ)}
    (hne : st ≠ []) (hT : (st.map (fun p => p.2)).sum ≠ 0) :
    calculate_participation_balance st =
      1 - giniSum ((sortAsc (st.map (fun p => p.2))).length : ℤ) 1
            (sortAsc (st.map (fun p => p.2))) /
          (((sortAsc (st.map (fun p => p.2))).length : ℚ) *
            (sortAsc (st.map (fun p => p.2))).sum) := by
  have hb : st.isEmpty = false := by
    cases st with
    | nil => exact absurd rfl hne
    | cons a l => rfl
  simp only [calculate_participation_balance, hb, Bool.false_eq_true, if_false, hT,
    if_neg hT]

theorem speakerTimes_nonneg {segs : List Segment}
    (h : ∀ s ∈ segs, 0 ≤ s.duration) : ∀ p ∈ speakerTimes segs, 0 ≤ p.2 := by
  unfold speakerTimes
  have general : ∀ (l : List Segment) (acc : List (String × ℚ)),
      (∀ s ∈ l, 0 ≤ s.duration) → (∀ p ∈ acc, 0 ≤ p.2) →
      ∀ p ∈ l.foldl (fun acc s => addTime s.speaker s.duration acc) acc, 0 ≤ p.2 := by
    intro l
    induction l with
    | nil => intro acc _ hacc; simpa using hacc
    | cons s rest ih =>
      intro acc hl hacc
      rw [List.foldl_cons]
      exact ih _ (fun x hx => hl x (List.mem_cons_of_mem _ hx))
        (addTime_nonneg (hl s (List.mem_cons_self _ _)) hacc)
  exact general segs [] h (by simp)

/-- C3: for every non-empty segment list with non-negative durations (the
data-model invariant) and positive total aggregated speaking time, the
participation balance returned by the analyzer equals
`1 - (sum of (2i - n - 1) * t_i) / (n * T)` over the ascending-sorted
aggregated times `t_1 .. t_n` (1-indexed), lies in `[0, 1]`, and equals
exactly 1 whenever all speakers have identical aggregated time; with no
speakers or a zero total, the balance defaults to `1/2`. -/
theorem participation_balance_gini_spec :
    (∀ (d : MeetingData) (ts : List ℚ) (T : ℚ),
      d.segments ≠ [] →
      (∀ s ∈ d.segments, 0 ≤ s.duration) →
      ts = sortAsc ((speakerTimes d.segments).map (fun p => p.2)) →
      T = totalSpeakingTime d.segments →
      0 < T →
      ∃ dist dom bal,
        analyze_participants d = .ok dist dom bal ∧
        bal = 1 - (∑ i in Finset.range ts.length,
            ((2 * ((i : ℤ) + 1) - (ts.length : ℤ) - 1 : ℤ) : ℚ) * ts.getD i 0) /
          ((ts.length : ℚ) * T) ∧
        0 ≤ bal ∧ bal ≤ 1 ∧
        (∀ t : ℚ, (∀ p ∈ speakerTimes d.segments, p.2 = t) → bal = 1)) ∧
    calculate_participation_balance [] = 1 / 2 ∧
    (∀ st : List (String × ℚ), (st.map (fun p => p.2)).sum = 0 →
      calculate_participation_balance st = 1 / 2) := by
  refine ⟨?_, ?_, ?_⟩
  · intro d ts T hseg hdur hts hT hTpos
    have hstne : speakerTimes d.segments ≠ [] := speakerTimes_ne_nil hseg
    have hvals : ∀ p ∈ speakerTimes d.segments, 0 ≤ p.2 := speakerTimes_nonneg hdur
    have hsum : ((speakerTimes d.segments).map (fun p => p.2)).sum = T := by
      rw [hT, totalSpeakingTime]
    have hsum_ne : ((speakerTimes d.segments).map (fun p => p.2)).sum ≠ 0 := by
      rw [hsum]
      exact ne_of_gt hTpos
    have hnB : d.segments.isEmpty = false := by
      cases hs : d.segments with
      | nil => exact absurd hs hseg
      | cons a l => rfl
    have hbal := calculate_participation_balance_eq hstne hsum_ne
    have hAP : analyze_participants d = .ok
        ((speakerTimes d.segments).map (fun p =>
          (p.1, p.2,
            if 0 < ((speakerTimes d.segments).map (fun p => p.2)).sum then
              pyRound2 (p.2 / ((speakerTimes d.segments).map (fun p => p.2)).sum * 100)
            else 0)))
        (dominantSpeaker (speakerTimes d.segments))
        (calculate_participation_balance (speakerTimes d.segments)) := by
      simp only [analyze_participants, hnB, Bool.false_eq_true, if_false]
    set times := (speakerTimes d.segments).map (fun p => p.2) with htimes
    have htimes_ne : times ≠ [] := by
      rw [htimes]
      simp only [ne_eq, List.map_eq_nil_iff]
      exact hstne
    have hlen_pos : 0 < (sortAsc times).length := by
      rw [sortAsc_length]
      exact List.length_pos.mpr htimes_ne
    have hsorted_sum : (sortAsc times).sum = T := by rw [sortAsc_sum]; exact hsum
    have hpair := sortAsc_pairwise times
    have hS_nonneg : 0 ≤ giniSum ((sortAsc times).length : ℤ) 1 (sortAsc times) :=
      giniSum_nonneg (sortAsc times) hpair
    have hmem_nonneg : ∀ x ∈ sortAsc times, (0 : ℚ) ≤ x := by
      intro x hx
      have hx' : x ∈ times := (sortAsc_perm times).mem_iff.mp hx
      rw [htimes] at hx'
      rcases List.mem_map.mp hx' with ⟨p, hp, rfl⟩
      exact hvals p hp
    have hS_le := giniSum_le_max_coeff ((sortAsc times).length : ℤ) (sortAsc times) 1
      hmem_nonneg
    have hS_le' : giniSum ((sortAsc times).length : ℤ) 1 (sortAsc times) ≤
        (((sortAsc times).length : ℚ) - 1) * T := by
      calc giniSum ((sortAsc times).length : ℤ) 1 (sortAsc times) ≤
          ((2 * (1 + ((sortAsc times).length : ℤ) - 1) -
            ((sortAsc times).length : ℤ) - 1 : ℤ) : ℚ) * (sortAsc times).sum := hS_le
        _ = (((sortAsc times).length : ℚ) - 1) * (sortAsc times).sum := by push_cast; ring
        _ = (((sortAsc times).length : ℚ) - 1) * T := by rw [hsorted_sum]
    have hlenQ_pos : (0 : ℚ) < ((sortAsc times).length : ℚ) := by exact_mod_cast hlen_pos
    have hden_pos : (0 : ℚ) < ((sortAsc times).length : ℚ) * T := mul_pos hlenQ_pos hTpos
    have hgini_nonneg : 0 ≤ giniSum ((sortAsc times).length : ℤ) 1 (sortAsc times) /
        (((sortAsc times).length : ℚ) * (sortAsc times).sum) := by
      rw [hsorted_sum]
      exact div_nonneg hS_nonneg (le_of_lt hden_pos)
    have hgini_le_one : giniSum ((sortAsc times).length : ℤ) 1 (sortAsc times) /
        (((sortAsc times).length : ℚ) * (sortAsc times).sum) ≤ 1 := by
      rw [hsorted_sum, div_le_one hden_pos]
      nlinarith [hS_le', hTpos]
    refine ⟨_, _, _, hAP, ?_, ?_, ?_, ?_⟩
    · rw [hbal, hts, giniSum_eq_finset, hsorted_sum]
      have hA : ∀ k ∈ Finset.range (sortAsc times).length,
          ((2 * (1 + (k : ℤ)) - ((sortAsc times).length : ℤ) - 1 : ℤ) : ℚ) *
            (sortAsc times).getD k 0 =
          ((2 * ((k : ℤ) + 1) - ((sortAsc times).length : ℤ) - 1 : ℤ) : ℚ) *
            (sortAsc times).getD k 0 := by
        intro k _
        ring_nf
      rw [Finset.sum_congr rfl hA]
    · rw [hbal]
      linarith [hgini_le_one]
    · rw [hbal]
      linarith [hgini_nonneg]
    · intro t hteq
      have htimes_eq : ∀ x ∈ times, x = t := by
        intro x hx
        rw [htimes] at hx
        rcases List.mem_map.mp hx with ⟨p, hp, rfl⟩
        exact hteq p hp
      have hsorted_eq : sortAsc times = List.replicate (sortAsc times).length t :=
        List.eq_replicate_iff.mpr ⟨rfl,
          fun b hb => htimes_eq b ((sortAsc_perm times).mem_iff.mp hb)⟩
      rw [hbal]
      rw [show giniSum ((sortAsc times).length : ℤ) 1 (sortAsc times) = 0 by
        conv_lhs => rw [hsorted_eq]
        rw [giniSum_replicate]
        simp only [List.length_replicate]
        push_cast
        ring]
      simp
  · rfl
  · intro st hsum0
    by_cases hst : st.isEmpty
    · simp [calculate_participation_balance, hst]
    · simp [calculate_participation_balance, hst, hsum0]

/-- Witness for C3: the worked example record with a perfect 60/60 split. -/
theorem participation_balance_gini_spec_witness :
    ∃ dist dom bal,
      analyze_participants exampleMeetingData = .ok dist dom bal ∧
      bal = 1 - (∑ i in Finset.range
          (sortAsc ((speakerTimes exampleMeetingData.segments).map (fun p => p.2))).length,
          ((2 * ((i : ℤ) + 1) -
            ((sortAsc ((speakerTimes exampleMeetingData.segments).map (fun p => p.2))).length : ℤ) -
            1 : ℤ) : ℚ) *
            (sortAsc ((speakerTimes exampleMeetingData.segments).map (fun p => p.2))).getD i 0) /
        (((sortAsc ((speakerTimes exampleMeetingData.segments).map (fun p => p.2))).length : ℚ) *
          totalSpeakingTime exampleMeetingData.segments) ∧
      0 ≤ bal ∧ bal ≤ 1 ∧
      (∀ t : ℚ, (∀ p ∈ speakerTimes exampleMeetingData.segments, p.2 = t) → bal = 1) := by
  have hsp : speakerTimes exampleMeetingData.segments = [("S1", 60), ("S2", 60)] := by decide
  have hpos : 0 < totalSpeakingTime exampleMeetingData.segments := by
    rw [totalSpeakingTime, hsp]
    norm_num
  exact participation_balance_gini_spec.1 exampleMeetingData _ _
    (by decide) (by decide) rfl rfl hpos

theorem roundHalfEven_sub_le (q : ℚ) : |(roundHalfEven q : ℚ) - q| ≤ 1 / 2 := by
  have h0 : ((⌊q⌋ : ℤ) : ℚ) ≤ q := Int.floor_le q
  have h1 : q < ⌊q⌋ + 1 := Int.lt_floor_add_one q
  unfold roundHalfEven
  by_cases hc1 : q - ⌊q⌋ < 1 / 2
  · rw [if_pos hc1, abs_le]
    constructor <;> linarith
  · rw [if_neg hc1]
    by_cases hc2 : 1 / 2 < q - ⌊q⌋
    · rw [if_pos hc2]
      push_cast
      rw [abs_le]
      constructor <;> linarith
    · rw [if_neg hc2]
      have heq : q - ⌊q⌋ = 1 / 2 := le_antisymm (not_lt.mp hc2) (not_lt.mp hc1)
      by_cases hc3 : ⌊q⌋ % 2 = 0
      · rw [if_pos hc3, abs_le]
        constructor <;> linarith
      · rw [if_neg hc3]
        push_cast
        rw [abs_le]
        constructor <;> linarith

theorem roundHalfEven_nonneg {q : ℚ} (h : 0 ≤ q) : 0 ≤ roundHalfEven q := by
  have hf : (0 : ℤ) ≤ ⌊q⌋ := Int.floor_nonneg.mpr h
  unfold roundHalfEven
  by_cases hc1 : q - ⌊q⌋ < 1 / 2
  · rw [if_pos hc1]; exact hf
  · rw [if_neg hc1]
    by_cases hc2 : 1 / 2 < q - ⌊q⌋
    · rw [if_pos hc2]; omega
    · rw [if_neg hc2]
      by_cases hc3 : ⌊q⌋ % 2 = 0
      · rw [if_pos hc3]; exact hf
      · rw [if_neg hc3]; omega

theorem roundHalfEven_le_intCast {q : ℚ} {m : ℤ} (h : q ≤ (m : ℚ)) :
    roundHalfEven q ≤ m := by
  have hf : ⌊q⌋ ≤ m := by
    have := Int.floor_le_floor h
    simpa using this
  have h0 : ((⌊q⌋ : ℤ) : ℚ) ≤ q := Int.floor_le q
  unfold roundHalfEven
  by_cases hc1 : q - ⌊q⌋ < 1 / 2
  · rw [if_pos hc1]; exact hf
  · rw [if_neg hc1]
    have hhalf : (1 : ℚ) / 2 ≤ q - ⌊q⌋ := not_lt.mp hc1
    have hstrict : ⌊q⌋ < m := by
      by_contra hnot
      have hqm : ⌊q⌋ = m := le_antisymm hf (not_lt.mp hnot)
      rw [hqm] at h0 hhalf
      linarith
    by_cases hc2 : 1 / 2 < q - ⌊q⌋
    · rw [if_pos hc2]; omega
    · rw [if_neg hc2]
      by_cases hc3 : ⌊q⌋ % 2 = 0
      · rw [if_pos hc3]; exact hf
      · rw [if_neg hc3]; omega

theorem pyRound2_sub_le (q : ℚ) : |pyRound2 q - q| ≤ 1 / 200 := by
  have h := roundHalfEven_sub_le (q * 100)
  have : pyRound2 q - q = ((roundHalfEven (q * 100) : ℚ) - q * 100) / 100 := by
    rw [pyRound2]
    ring
  rw [this, abs_div]
  rw [show |(100 : ℚ)| = 100 by norm_num]
  linarith

theorem pyRound2_nonneg {q : ℚ} (h : 0 ≤ q) : 0 ≤ pyRound2 q := by
  have : (0 : ℤ) ≤ roundHalfEven (q * 100) :=
    roundHalfEven_nonneg (by nlinarith)
  rw [pyRound2]
  exact div_nonneg (by exact_mod_cast this) (by norm_num)

theorem pyRound2_le_hundred {q : ℚ} (h : q ≤ 100) : pyRound2 q ≤ 100 := by
  have hcast : q * 100 ≤ ((10000 : ℤ) : ℚ) := by push_cast; nlinarith
  have : roundHalfEven (q * 100) ≤ 10000 := roundHalfEven_le_intCast hcast
  rw [pyRound2]
  rw [div_le_iff₀ (by norm_num : (0 : ℚ) < 100)]
  calc ((roundHalfEven (q * 100) : ℤ) : ℚ) ≤ ((10000 : ℤ) : ℚ) := by exact_mod_cast this
    _ = 100 * 100 := by norm_num

theorem sum_map_pyRound2_err : ∀ l : List ℚ,
    |((l.map pyRound2).sum) - l.sum| ≤ (l.length : ℚ) * (1 / 200) := by
  intro l
  induction l with
  | nil => simp
  | cons x xs ih =>
    simp only [List.map_cons, List.sum_cons, List.length_cons]
    have hx := pyRound2_sub_le x
    have htri : |pyRound2 x + (xs.map pyRound2).sum - (x + xs.sum)| ≤
        |pyRound2 x - x| + |(xs.map pyRound2).sum - xs.sum| := by
      have : pyRound2 x + (xs.map pyRound2).sum - (x + xs.sum) =
          (pyRound2 x - x) + ((xs.map pyRound2).sum - xs.sum) := by ring
      rw [this]
      exact abs_add _ _
    push_cast
    linarith

theorem sum_map_mul_const (l : List ℚ) (b : ℚ) :
    (l.map (fun x => x * b)).sum = l.sum * b := by
  induction l with
  | nil => simp
  | cons x xs ih =>
    simp only [List.map_cons, List.sum_cons, ih]
    ring

/-- C4 (amended): for every non-empty segment list with non-negative
durations and positive total aggregated speaking time, each percentage of
the speaking time distribution lies in `[0, 100]` and the percentages sum
to 100 within a rounding tolerance of 0.005 per speaker (so within 0.1
only when there are at most 20 distinct speakers). -/
theorem speaking_percentages_sum_spec :
    ∀ (d : MeetingData), d.segments ≠ [] →
      (∀ s ∈ d.segments, 0 ≤ s.duration) →
      0 < totalSpeakingTime d.segments →
      ∃ dist dom bal,
        analyze_participants d = .ok dist dom bal ∧
        (∀ e ∈ dist, 0 ≤ e.2.2 ∧ e.2.2 ≤ 100) ∧
        |((dist.map (fun e => e.2.2)).sum) - 100| ≤ (dist.length : ℚ) * (1 / 200) := by
  intro d hseg hdur hTpos
  have hstne : speakerTimes d.segments ≠ [] := speakerTimes_ne_nil hseg
  have hvals : ∀ p ∈ speakerTimes d.segments, 0 ≤ p.2 := speakerTimes_nonneg hdur
  have hnB : d.segments.isEmpty = false := by
    cases hs : d.segments with
    | nil => exact absurd hs hseg
    | cons a l => rfl
  set st := speakerTimes d.segments with hst
  set T := (st.map (fun p => p.2)).sum with hTdef
  have hTpos' : (0 : ℚ) < T := by simpa [totalSpeakingTime] using hTpos
  have hAP : analyze_participants d = .ok
      (st.map (fun p => (p.1, p.2, if 0 < T then pyRound2 (p.2 / T * 100) else 0)))
      (dominantSpeaker st) (calculate_participation_balance st) := by
    simp only [analyze_participants, hnB, Bool.false_eq_true, if_false]
  refine ⟨_, _, _, hAP, ?_, ?_⟩
  · intro e he
    rcases List.mem_map.mp he with ⟨p, hp, rfl⟩
    simp only [if_pos hTpos']
    have hp0 : (0 : ℚ) ≤ p.2 := hvals p hp
    have hple : p.2 ≤ T := by
      rw [hTdef]
      exact List.single_le_sum (fun x hx => by
          rcases List.mem_map.mp hx with ⟨q, hq, rfl⟩
          exact hvals q hq)
        p.2 (List.mem_map_of_mem _ hp)
    have hx0 : (0 : ℚ) ≤ p.2 / T * 100 := by
      have := div_nonneg hp0 (le_of_lt hTpos')
      nlinarith
    have hx1 : p.2 / T * 100 ≤ 100 := by
      have : p.2 / T ≤ 1 := (div_le_one hTpos').mpr hple
      nlinarith
    exact ⟨pyRound2_nonneg hx0, pyRound2_le_hundred hx1⟩
  · have hmapeq : ((st.map (fun p =>
        (p.1, p.2, if 0 < T then pyRound2 (p.2 / T * 100) else 0))).map
          (fun e => e.2.2)) =
        ((st.map (fun p => p.2 / T * 100)).map pyRound2) := by
      simp only [List.map_map]
      refine List.map_congr_left ?_
      intro p _
      simp [if_pos hTpos']
    have hvals_sum : (st.map (fun p => p.2 / T * 100)).sum = 100 := by
      have h1 : st.map (fun p => p.2 / T * 100) =
          (st.map (fun p => p.2)).map (fun x => x * (100 / T)) := by
        simp only [List.map_map]
        refine List.map_congr_left ?_
        intro p _
        show p.2 / T * 100 = p.2 * (100 / T)
        ring
      rw [h1, sum_map_mul_const, ← hTdef]
      field_simp
    have herr := sum_map_pyRound2_err (st.map (fun p => p.2 / T * 100))
    rw [hmapeq]
    rw [hvals_sum] at herr
    simpa [List.length_map] using herr

/-- Witness for C4 (amended): the worked example record. -/
theorem speaking_percentages_sum_spec_witness :
    ∃ dist dom bal,
      analyze_participants exampleMeetingData = .ok dist dom bal ∧
      (∀ e ∈ dist, 0 ≤ e.2.2 ∧ e.2.2 ≤ 100) ∧
      |((dist.map (fun e => e.2.2)).sum) - 100| ≤ (dist.length : ℚ) * (1 / 200) := by
  have hsp : speakerTimes exampleMeetingData.segments = [("S1", 60), ("S2", 60)] := by
    decide
  have hpos : 0 < totalSpeakingTime exampleMeetingData.segments := by
    rw [totalSpeakingTime, hsp]
    norm_num
  exact speaking_percentages_sum_spec exampleMeetingData (by decide) (by decide) hpos

/-- Counterexample for C4 as stated: with 31 speakers of equal speaking
time, every rounded percentage is 3.23, so the percentages sum to 100.13,
which misses 100 by more than the claimed 0.1 tolerance. -/
theorem speaking_percentages_tolerance_cex :
    meetingData31.segments ≠ [] ∧
    (∀ s ∈ meetingData31.segments, 0 ≤ s.duration) ∧
    0 < totalSpeakingTime meetingData31.segments ∧
    pctSum (analyze_participants meetingData31) = 10013 / 100 ∧
    ¬ (|pctSum (analyze_participants meetingData31) - 100| ≤ 1 / 10) := by
  have h : speakerTimes meetingData31.segments =
      [("P01", (1 : ℚ)), ("P02", 1), ("P03", 1), ("P04", 1), ("P05", 1), ("P06", 1),
       ("P07", 1), ("P08", 1), ("P09", 1), ("P10", 1), ("P11", 1), ("P12", 1),
       ("P13", 1), ("P14", 1), ("P15", 1), ("P16", 1), ("P17", 1), ("P18", 1),
       ("P19", 1), ("P20", 1), ("P21", 1), ("P22", 1), ("P23", 1), ("P24", 1),
       ("P25", 1), ("P26", 1), ("P27", 1), ("P28", 1), ("P29", 1), ("P30", 1),
       ("P31", 1)] := by decide
  have hne : meetingData31.segments.isEmpty = false := by decide
  have hfr : Int.fract ((10000 : ℚ) / 31) = 18 / 31 := by
    unfold Int.fract
    norm_num
  have hpct : pctSum (analyze_participants meetingData31) = 10013 / 100 := by
    simp only [pctSum, analyze_participants, ParticipantInsights.dist, h, hne]
    norm_num [pyRound2, roundHalfEven, hfr]
  refine ⟨by decide, by decide, ?_, hpct, ?_⟩
  · rw [totalSpeakingTime, h]
    norm_num
  · rw [hpct]
    intro hcon
    rw [abs_le] at hcon
    have := hcon.2
    norm_num at this

/-- C1 (code behavior at the failing input): on the degenerate record the
metrics are all zero and the participation and temporal analyzers return
their markers, but the pipeline does not complete without an exception:
`_track_keyword_evolution` evaluates `sentences[-1]` on an empty sentence
list, so the orchestrator propagates `IndexError` out of the content
analyzer, and `_calculate_engagement` raises `TypeError` (from `len` of an
`int`) even when invoked directly, so no 16.7 score is produced. -/
theorem empty_record_pipeline_raises :
    (calculate_meeting_metrics emptyMeetingData).word_count = 0 ∧
    (calculate_meeting_metrics emptyMeetingData).sentence_count = 0 ∧
    (calculate_meeting_metrics emptyMeetingData).unique_topics = 0 ∧
    analyze_participants emptyMeetingData = .insufficient ∧
    analyze_temporal_patterns emptyMeetingData = .noData ∧
    track_keyword_evolution emptyMeetingData.transcript_text = .error .indexError ∧
    calculate_engagement emptyMeetingData = .error .typeError ∧
    generate_comprehensive_analytics emptyMeetingData = .error .indexError :=
  ⟨by decide, by decide, by decide, rfl, rfl, rfl, rfl, rfl⟩

/-- C2: the specification's worked example record yields 15 words, 3
sentences, 2 speakers, participation balance exactly 1, the "positive"
sentiment label, question count 1, and decision points containing both
"ship the feature" and "we also review the budget". -/
theorem example_scenario_spec :
    (calculate_meeting_metrics exampleMeetingData).word_count = 15 ∧
    (calculate_meeting_metrics exampleMeetingData).sentence_count = 3 ∧
    (calculate_meeting_metrics exampleMeetingData).speaker_count = 2 ∧
    (∃ dist dom, analyze_participants exampleMeetingData = .ok dist dom 1) ∧
    (∃ ca, analyze_content exampleMeetingData = .ok ca ∧
      ca.sentiment_trend = "positive" ∧
      ca.question_count = 1 ∧
      "ship the feature" ∈ ca.decision_points ∧
      "we also review the budget" ∈ ca.decision_points) := by
  have hsp : speakerTimes exampleMeetingData.segments = [("S1", 60), ("S2", 60)] := by
    decide
  have hne : exampleMeetingData.segments.isEmpty = false := by decide
  refine ⟨by decide, by decide, by decide,
    ⟨[("S1", 60, 50), ("S2", 60, 50)], "S1", ?_⟩, ?_⟩
  · simp only [analyze_participants, hsp, hne, Bool.false_eq_true, if_false]
    norm_num [pyRound2, roundHalfEven, calculate_participation_balance, sortAsc,
      insertAsc, giniSum, dominantSpeaker]
  · refine ⟨_, rfl, by decide, by decide, by decide, by decide⟩

/-- C6 (code behavior): `_calculate_engagement` raises `TypeError` on every
meeting record, because it evaluates `len(metrics['unique_topics'])` and
`unique_topics` holds an `int`; no overall score is ever produced, so in
particular no monotonicity in the word count can be observed. -/
theorem engagement_always_type_error :
    ∀ d : MeetingData, calculate_engagement d = .error .typeError := by
  intro d
  rfl

/-- C10: the sentence count can strictly exceed the word count: "a.b.c"
has one whitespace-delimited token but splits into three non-empty
sentences. -/
theorem sentence_count_can_exceed_word_count :
    ∃ d : MeetingData,
      (calculate_meeting_metrics d).word_count <
        (calculate_meeting_metrics d).sentence_count := by
  refine ⟨{ transcript_text := "a.b.c", audio_duration := 0, speaker_count := 1,
            segments := [], summary_text := "" }, ?_⟩
  decide

theorem pyListIndex_ok {α : Type} (l : List α) (i : ℤ) (h0 : 0 ≤ i)
    (h1 : i < l.length) : ∃ a, pyListIndex l i = .ok a := by
  have hneg : ¬ i < 0 := not_lt.mpr h0
  have hlt : i.toNat < l.length := by omega
  refine ⟨l.get ⟨i.toNat, hlt⟩, ?_⟩
  simp only [pyListIndex, hneg, if_false]
  rw [dif_pos ⟨h0, hlt⟩]

theorem keywordLoop_ok (sentences : List (List Char)) :
    ∀ ps : List ℤ, (∀ p ∈ ps, 0 ≤ p ∧ p < sentences.length) →
      ∃ l, keywordLoop sentences ps = .ok l ∧ l.length = ps.length := by
  intro ps
  induction ps with
  | nil => intro _; exact ⟨[], rfl, rfl⟩
  | cons p ps ih =>
    intro h
    obtain ⟨h0, h1⟩ := h p (List.mem_cons_self _ _)
    obtain ⟨rest, hrest, hlen⟩ := ih (fun q hq => h q (List.mem_cons_of_mem _ hq))
    obtain ⟨a, ha⟩ := pyListIndex_ok sentences p h0 h1
    refine ⟨evolutionEntry p a :: rest, ?_, by simp [hlen]⟩
    simp only [keywordLoop, h1, if_pos, ha, hrest]
    rfl

/-- C9 (amended): keyword evolution returns exactly four entries whenever
at least one non-whitespace sentence exists (sample positions may repeat
on short transcripts), but on a transcript with no non-whitespace
sentences it raises `IndexError` (the sample point `len(sentences) - 1`
is `-1` and Python indexes `sentences[-1]` on an empty list) instead of
returning an empty list. -/
theorem keyword_evolution_spec :
    ∀ text : String,
      (keSentences text ≠ [] →
        ∃ l, track_keyword_evolution text = .ok l ∧ l.length = 4) ∧
      (keSentences text = [] →
        track_keyword_evolution text = .error .indexError) := by
  intro text
  constructor
  · intro hne
    have hn : 0 < (keSentences text).length := List.length_pos.mpr hne
    have h1 : (1 : ℤ) ≤ ((keSentences text).length : ℤ) := by exact_mod_cast hn
    have hbounds : ∀ p ∈ [(0 : ℤ), ((keSentences text).length : ℤ) / 3,
        2 * ((keSentences text).length : ℤ) / 3, ((keSentences text).length : ℤ) - 1],
        0 ≤ p ∧ p < ((keSentences text).length : ℤ) := by
      intro p hp
      simp only [List.mem_cons, List.not_mem_nil, or_false] at hp
      rcases hp with rfl | rfl | rfl | rfl
      · omega
      · omega
      · omega
      · omega
    obtain ⟨l, hl, hlen⟩ := keywordLoop_ok (keSentences text) _ hbounds
    exact ⟨l, hl, by rw [hlen]; rfl⟩
  · intro hempty
    simp only [track_keyword_evolution, hempty]
    rfl

/-- Witness for C9: a one-sentence transcript yields four entries. -/
theorem keyword_evolution_spec_witness :
    ∃ l, track_keyword_evolution "x." = .ok l ∧ l.length = 4 :=
  (keyword_evolution_spec "x.").1 (by decide)

/-- Counterexample for C9 as stated: on the empty transcript the function
raises `IndexError` rather than returning the empty list. -/
theorem keyword_evolution_empty_cex :
    track_keyword_evolution "" = .error .indexError ∧
    track_keyword_evolution "" ≠ .ok [] := by
  refine ⟨rfl, ?_⟩
  intro h
  rw [show track_keyword_evolution "" = .error .indexError from rfl] at h
  simp at h

theorem enumerate_length {α : Type} : ∀ (l : List α) (i : ℕ),
    (enumerate i l).length = l.length := by
  intro l
  induction l with
  | nil => intro i; rfl
  | cons x xs ih =>
    intro i
    simp only [enumerate, List.length_cons, ih]

theorem enumerate_get {α : Type} : ∀ (l : List α) (i k : ℕ) (hk : k < l.length)
    (hk2 : k < (enumerate i l).length),
    (enumerate i l).get ⟨k, hk2⟩ = (i + k, l.get ⟨k, hk⟩) := by
  intro l
  induction l with
  | nil =>
    intro i k hk _
    exact absurd hk (by simp)
  | cons x xs ih =>
    intro i k hk hk2
    cases k with
    | zero => simp [enumerate]
    | succ m =>
      have hm : m < xs.length := by simpa using hk
      have hm2 : m < (enumerate (i + 1) xs).length := by
        rw [enumerate_length]
        exact hm
      simp only [enumerate, List.get_cons_succ]
      rw [ih (i + 1) m hm hm2]
      have : i + 1 + m = i + (m + 1) := by omega
      rw [this]

/-- C7: the event suggestion engine returns at most three candidates, the
k-th candidate (0-based) has confidence exactly `0.7 - 0.1 * k` (hence the
strictly decreasing sequence 0.7, 0.6, 0.5), and when none of the four
topic phrase patterns matches the transcript it returns exactly the three
candidates built from the default topic list. -/
theorem event_candidates_spec :
    ∀ d : MeetingData,
      ((extract_events_free d).length ≤ 3 ∧
        ∀ (k : ℕ) (hk : k < (extract_events_free d).length),
          ((extract_events_free d).get ⟨k, hk⟩).confidence =
            7 / 10 - (k : ℚ) * (1 / 10)) ∧
      (topic_pattern_matches d.transcript_text = [] →
        extract_events_free d =
          [{ title := "Discussion: Action Items",
             description :=
               "Automatically generated from meeting discussion about: Action Items",
             duration_minutes := 30, confidence := 7 / 10, type := "suggested",
             participants := [] },
           { title := "Discussion: Project Update",
             description :=
               "Automatically generated from meeting discussion about: Project Update",
             duration_minutes := 30, confidence := 6 / 10, type := "suggested",
             participants := [] },
           { title := "Discussion: Team Discussion",
             description :=
               "Automatically generated from meeting discussion about: Team Discussion",
             duration_minutes := 30, confidence := 5 / 10, type := "suggested",
             participants := [] }]) := by
  intro d
  constructor
  · constructor
    · show ((enumerate 0 ((extract_event_topics d.transcript_text).take 3)).map _).length ≤ 3
      rw [List.length_map, enumerate_length]
      exact List.length_take_le 3 _
    · intro k hk
      have hk1 : k < (enumerate 0 ((extract_event_topics d.transcript_text).take 3)).length := by
        simpa [extract_events_free, List.length_map] using hk
      have hk0 : k < ((extract_event_topics d.transcript_text).take 3).length := by
        rw [← enumerate_length _ 0]
        exact hk1
      show (((enumerate 0 ((extract_event_topics d.transcript_text).take 3)).map _).get
        ⟨k, hk⟩).confidence = _
      rw [List.get_map]
      rw [enumerate_get _ 0 k hk0]
      simp

  · intro hno
    have htopics : extract_event_topics d.transcript_text =
        ["Action Items", "Project Update", "Team Discussion"] := by
      rw [extract_event_topics, hno]
      rfl
    have ht1 : generate_event_title "Action Items" = "Discussion: Action Items" := by
      decide
    have ht2 : generate_event_title "Project Update" = "Discussion: Project Update" := by
      decide
    have ht3 : generate_event_title "Team Discussion" = "Discussion: Team Discussion" := by
      decide
    simp only [extract_events_free, htopics, enumerate, List.take, ht1, ht2, ht3]
    norm_num
    exact ⟨⟨ht1, by decide⟩, ⟨ht2, by decide⟩, ht3, by decide⟩

/-- Witness for C7: the empty transcript has no topic-pattern match and
produces exactly the three default candidates. -/
theorem event_candidates_spec_witness :
    extract_events_free emptyMeetingData =
      [{ title := "Discussion: Action Items",
         description :=
           "Automatically generated from meeting discussion about: Action Items",
         duration_minutes := 30, confidence := 7 / 10, type := "suggested",
         participants := [] },
       { title := "Discussion: Project Update",
         description :=
           "Automatically generated from meeting discussion about: Project Update",
         duration_minutes := 30, confidence := 6 / 10, type := "suggested",
         participants := [] },
       { title := "Discussion: Team Discussion",
         description :=
           "Automatically generated from meeting discussion about: Team Discussion",
         duration_minutes := 30, confidence := 5 / 10, type := "suggested",
         participants := [] }] :=
  (event_candidates_spec emptyMeetingData).2 (by decide)

theorem argmaxFrom_spec : ∀ (xs : List ℚ) (i : ℕ) (best : ℕ × ℚ),
    ((argmaxFrom best i xs = best) ∨
      ∃ k, k < xs.length ∧ (argmaxFrom best i xs).1 = i + k ∧
        (argmaxFrom best i xs).2 = xs.getD k 0 ∧
        best.2 < (argmaxFrom best i xs).2 ∧
        ∀ j < k, xs.getD j 0 < (argmaxFrom best i xs).2) ∧
    best.2 ≤ (argmaxFrom best i xs).2 ∧
    ∀ k < xs.length, xs.getD k 0 ≤ (argmaxFrom best i xs).2 := by
  intro xs
  induction xs with
  | nil =>
    intro i best
    refine ⟨Or.inl rfl, le_refl _, ?_⟩
    intro k hk
    exact absurd hk (by simp)
  | cons x xs ih =>
    intro i best
    by_cases hlt : best.2 < x
    · have hr : argmaxFrom best i (x :: xs) = argmaxFrom (i, x) (i + 1) xs := by
        simp [argmaxFrom, hlt]
      obtain ⟨hcase, hge, hbound⟩ := ih (i + 1) (i, x)
      rw [hr]
      refine ⟨?_, ?_, ?_⟩
      · rcases hcase with heq | ⟨k, hk, h1, h2, h3, h4⟩
        · refine Or.inr ⟨0, by simp, ?_, ?_, ?_, ?_⟩
          · rw [heq]; simp
          · rw [heq]; simp
          · rw [heq]; exact hlt
          · intro j hj; omega
        · refine Or.inr ⟨k + 1, by simp only [List.length_cons]; omega, by omega, ?_, ?_, ?_⟩
          · simpa using h2
          · exact lt_trans hlt h3
          · intro j hj
            cases j with
            | zero => simpa using h3
            | succ m =>
              have : m < k := by omega
              simpa using h4 m this
      · exact le_of_lt (lt_of_lt_of_le hlt hge)
      · intro k hk
        cases k with
        | zero => simpa using hge
        | succ m =>
          have : m < xs.length := by simpa using hk
          simpa using hbound m this
    · have hr : argmaxFrom best i (x :: xs) = argmaxFrom best (i + 1) xs := by
        simp [argmaxFrom, hlt]
      obtain ⟨hcase, hge, hbound⟩ := ih (i + 1) best
      rw [hr]
      have hxle : x ≤ best.2 := not_lt.mp hlt
      refine ⟨?_, hge, ?_⟩
      · rcases hcase with heq | ⟨k, hk, h1, h2, h3, h4⟩
        · exact Or.inl heq
        · refine Or.inr ⟨k + 1, by simp only [List.length_cons]; omega, by omega, ?_, h3, ?_⟩
          · simpa using h2
          · intro j hj
            cases j with
            | zero => simpa using lt_of_le_of_lt hxle h3
            | succ m =>
              have : m < k := by omega
              simpa using h4 m this
      · intro k hk
        cases k with
        | zero => simpa using le_trans hxle hge
        | succ m =>
          have : m < xs.length := by simpa using hk
          simpa using hbound m this

theorem argmaxIdx_spec (l : List ℚ) (hne : l ≠ []) :
    argmaxIdx l < l.length ∧
    (∀ k < l.length, l.getD k 0 ≤ l.getD (argmaxIdx l) 0) ∧
    (∀ j < argmaxIdx l, l.getD j 0 < l.getD (argmaxIdx l) 0) := by
  cases l with
  | nil => exact absurd rfl hne
  | cons x xs =>
    obtain ⟨hcase, hge, hbound⟩ := argmaxFrom_spec xs 1 (0, x)
    have hidx : argmaxIdx (x :: xs) = (argmaxFrom (0, x) 1 xs).1 := rfl
    rcases hcase with heq | ⟨k, hk, h1, h2, h3, h4⟩
    · rw [hidx, heq]
      refine ⟨by simp, ?_, ?_⟩
      · intro m hm
        cases m with
        | zero => simp
        | succ j =>
          have hj : j < xs.length := by simpa using hm
          have := hbound j hj
          rw [heq] at this
          simpa using this
      · intro j hj
        exact absurd hj (by simp)
    · rw [hidx, h1]
      have hgetd : (x :: xs).getD (1 + k) 0 = xs.getD k 0 := by
        have : 1 + k = k + 1 := by omega
        rw [this]
        simp
      refine ⟨by simp only [List.length_cons]; omega, ?_, ?_⟩
      · intro m hm
        rw [hgetd, ← h2]
        cases m with
        | zero => simpa using le_of_lt h3
        | succ j =>
          have hj : j < xs.length := by simpa using hm
          simpa using hbound j hj
      · intro j hj
        rw [hgetd, ← h2]
        cases j with
        | zero => simpa using h3
        | succ m =>
          have hm : m < k := by omega
          simpa using h4 m hm

theorem timeBins_getD (segs : List Segment) (j : ℕ) (hj : j < 10) :
    (timeBins segs).getD j 0 = (j : ℚ) * maxEndTime segs / 9 := by
  have hlen : j < (timeBins segs).length := by
    rw [timeBins, linspace, List.length_map, List.length_range]
    exact hj
  rw [List.getD_eq_getElem _ _ hlen]
  have : (timeBins segs)[j] = 0 + (j : ℚ) * (maxEndTime segs - 0) / (((10 : ℕ) : ℚ) - 1) := by
    simp only [timeBins, linspace]
    rw [List.getElem_map, List.getElem_range]
  rw [this]
  push_cast
  ring_nf

theorem activityByTime_length (segs : List Segment) : (activityByTime segs).length = 9 := by
  simp [activityByTime]

theorem activityByTime_getD (segs : List Segment) (i : ℕ) (hi : i < 9) :
    (activityByTime segs).getD i 0 =
      binActivity segs ((timeBins segs).getD i 0) ((timeBins segs).getD (i + 1) 0) := by
  have hlen : i < (activityByTime segs).length := by
    rw [activityByTime_length]
    exact hi
  rw [List.getD_eq_getElem _ _ hlen]
  simp only [activityByTime, List.getElem_map, List.getElem_range]

/-- C5: for every non-empty segment list the temporal analyzer returns
exactly nine bins; bin `i` sums the durations of the segments whose start
time lies in the half-open interval
`[i * E / 9, (i + 1) * E / 9)` for `E` the maximum end time; and the peak
activity time is the start boundary of the earliest bin with maximal
summed activity. -/
theorem temporal_bins_spec :
    ∀ d : MeetingData, d.segments ≠ [] →
      ∃ act peak,
        analyze_temporal_patterns d = .ok act peak "stable" ∧
        act.length = 9 ∧
        (∀ i, i < 9 →
          act.getD i 0 = ((d.segments.filter (fun s =>
            decide ((i : ℚ) * maxEndTime d.segments / 9 ≤ s.start_time ∧
              s.start_time < ((i : ℚ) + 1) * maxEndTime d.segments / 9))).map
            (fun s => s.duration)).sum) ∧
        (∃ i0 : ℕ, i0 < 9 ∧ peak = (i0 : ℚ) * maxEndTime d.segments / 9 ∧
          (∀ k, k < 9 → act.getD k 0 ≤ act.getD i0 0) ∧
          (∀ j, j < i0 → act.getD j 0 < act.getD i0 0)) := by
  intro d h
  have hnB : d.segments.isEmpty = false := by
    cases hs : d.segments with
    | nil => exact absurd hs h
    | cons a l => rfl
  have hact : analyze_temporal_patterns d = .ok (activityByTime d.segments)
      ((timeBins d.segments).getD (argmaxIdx (activityByTime d.segments)) 0) "stable" := by
    simp only [analyze_temporal_patterns, hnB, Bool.false_eq_true, if_false]
  refine ⟨_, _, hact, activityByTime_length d.segments, ?_, ?_⟩
  · intro i hi
    rw [activityByTime_getD d.segments i hi]
    rw [timeBins_getD d.segments i (by omega), timeBins_getD d.segments (i + 1) (by omega)]
    rw [binActivity]
    have hcast : ((i + 1 : ℕ) : ℚ) = (i : ℚ) + 1 := by push_cast; ring
    rw [hcast]
  · have hne : activityByTime d.segments ≠ [] := by
      intro hcon
      have := activityByTime_length d.segments
      rw [hcon] at this
      simp at this
    obtain ⟨hidx, hmax, hstrict⟩ := argmaxIdx_spec (activityByTime d.segments) hne
    rw [activityByTime_length] at hidx
    refine ⟨argmaxIdx (activityByTime d.segments), hidx, ?_, ?_, ?_⟩
    · exact timeBins_getD d.segments _ (by omega)
    · intro k hk
      exact hmax k (by rw [activityByTime_length]; exact hk)
    · intro j hj
      exact hstrict j hj

/-- Witness for C5: the worked example record with two segments. -/
theorem temporal_bins_spec_witness :
    ∃ act peak,
      analyze_temporal_patterns exampleMeetingData = .ok act peak "stable" ∧
      act.length = 9 ∧
      (∀ i, i < 9 →
        act.getD i 0 = ((exampleMeetingData.segments.filter (fun s =>
          decide ((i : ℚ) * maxEndTime exampleMeetingData.segments / 9 ≤ s.start_time ∧
            s.start_time < ((i : ℚ) + 1) * maxEndTime exampleMeetingData.segments / 9))).map
          (fun s => s.duration)).sum) ∧
      (∃ i0 : ℕ, i0 < 9 ∧ peak = (i0 : ℚ) * maxEndTime exampleMeetingData.segments / 9 ∧
        (∀ k, k < 9 → act.getD k 0 ≤ act.getD i0 0) ∧
        (∀ j, j < i0 → act.getD j 0 < act.getD i0 0)) :=
  temporal_bins_spec exampleMeetingData (by decide)

theorem list_range_map_sum (n : ℕ) (f : ℕ → ℚ) :
    ((List.range n).map f).sum = ∑ i in Finset.range n, f i := by
  induction n with
  | zero => rfl
  | succ m ih =>
    rw [List.range_succ, List.map_append, List.sum_append, Finset.sum_range_succ, ih]
    simp

theorem filter_decide_map_sum (segs : List Segment) (p : Segment → Prop)
    [DecidablePred p] :
    ((segs.filter (fun s => decide (p s))).map (fun s => s.duration)).sum =
      (segs.map (fun s => if p s then s.duration else 0)).sum := by
  induction segs with
  | nil => rfl
  | cons s rest ih =>
    by_cases hp : p s
    · simp [List.filter_cons, hp, ih]
    · simp [List.filter_cons, hp, ih]

theorem sum_swap_list_finset (n : ℕ) (segs : List Segment) (g : ℕ → Segment → ℚ) :
    (∑ i in Finset.range n, (segs.map (g i)).sum) =
      (segs.map (fun s => ∑ i in Finset.range n, g i s)).sum := by
  induction segs with
  | nil => simp
  | cons s rest ih =>
    simp only [List.map_cons, List.sum_cons]
    rw [Finset.sum_add_distrib, ih]

theorem bin_indicator_sum (E x dq : ℚ) (hx : 0 ≤ x) :
    (∑ i in Finset.range 9,
      if (i : ℚ) * E / 9 ≤ x ∧ x < ((i : ℚ) + 1) * E / 9 then dq else 0) =
      if x < E then dq else 0 := by
  rcases le_or_lt E 0 with hE | hE
  · have hz : ∀ i ∈ Finset.range 9,
        (if (i : ℚ) * E / 9 ≤ x ∧ x < ((i : ℚ) + 1) * E / 9 then dq else 0) = 0 := by
      intro i _
      rw [if_neg]
      rintro ⟨h1, h2⟩
      have hip : (0 : ℚ) ≤ (i : ℚ) := by positivity
      have hup : ((i : ℚ) + 1) * E / 9 ≤ 0 := by
        apply div_nonpos_of_nonpos_of_nonneg
        · nlinarith
        · norm_num
      linarith
    rw [Finset.sum_congr rfl hz, Finset.sum_const_zero]
    have hnlt : ¬ x < E := by intro hc; linarith
    rw [if_neg hnlt]
  · rcases le_or_lt E x with hge | hlt
    · have hz : ∀ i ∈ Finset.range 9,
          (if (i : ℚ) * E / 9 ≤ x ∧ x < ((i : ℚ) + 1) * E / 9 then dq else 0) = 0 := by
        intro i hi
        rw [if_neg]
        rintro ⟨h1, h2⟩
        have hi8 : (i : ℚ) ≤ 8 := by
          have h9 : i < 9 := Finset.mem_range.mp hi
          have : i ≤ 8 := Nat.lt_succ_iff.mp h9
          exact_mod_cast this
        have hle : ((i : ℚ) + 1) * E / 9 ≤ E := by
          rw [div_le_iff₀ (by norm_num : (0 : ℚ) < 9)]
          nlinarith
        linarith
      rw [Finset.sum_congr rfl hz, Finset.sum_const_zero]
      rw [if_neg (not_lt.mpr hge)]
    · have hy0 : (0 : ℚ) ≤ x * 9 / E := by positivity
      have hy9 : x * 9 / E < 9 := by
        rw [div_lt_iff₀ hE]
        nlinarith
      have hfl0 : 0 ≤ ⌊x * 9 / E⌋ := Int.floor_nonneg.mpr hy0
      have hfl9 : ⌊x * 9 / E⌋ < 9 := by
        have hle := Int.floor_le (x * 9 / E)
        have h9 : ((⌊x * 9 / E⌋ : ℤ) : ℚ) < 9 := lt_of_le_of_lt hle hy9
        exact_mod_cast h9
      set m : ℕ := ⌊x * 9 / E⌋.toNat with hm
      have hmz : (m : ℤ) = ⌊x * 9 / E⌋ := Int.toNat_of_nonneg hfl0
      have hm9 : m < 9 := by omega
      have hcond : ∀ i ∈ Finset.range 9,
          (if (i : ℚ) * E / 9 ≤ x ∧ x < ((i : ℚ) + 1) * E / 9 then dq else 0) =
            if i = m then dq else 0 := by
        intro i _
        have hiff : ((i : ℚ) * E / 9 ≤ x ∧ x < ((i : ℚ) + 1) * E / 9) ↔ i = m := by
          constructor
          · rintro ⟨h1, h2⟩
            have ha : (i : ℚ) ≤ x * 9 / E := by
              rw [le_div_iff₀ hE]
              rw [div_le_iff₀ (by norm_num : (0 : ℚ) < 9)] at h1
              nlinarith
            have hb : x * 9 / E < (i : ℚ) + 1 := by
              rw [div_lt_iff₀ hE]
              nlinarith
            have ha' : (i : ℤ) ≤ ⌊x * 9 / E⌋ := Int.le_floor.mpr (by exact_mod_cast ha)
            have hb' : ⌊x * 9 / E⌋ < (i : ℤ) + 1 := Int.floor_lt.mpr (by push_cast; linarith)
            omega
          · rintro rfl
            have hlow : ((m : ℚ)) ≤ x * 9 / E := by
              have := Int.floor_le (x * 9 / E)
              rw [← hmz] at this
              exact_mod_cast this
            have hhigh : x * 9 / E < (m : ℚ) + 1 := by
              have := Int.lt_floor_add_one (x * 9 / E)
              rw [← hmz] at this
              push_cast at this
              linarith
            constructor
            · rw [div_le_iff₀ (by norm_num : (0 : ℚ) < 9)]
              rw [le_div_iff₀ hE] at hlow
              linarith
            · rw [lt_div_iff₀ (by norm_num : (0 : ℚ) < 9)]
              rw [div_lt_iff₀ hE] at hhigh
              linarith
        rw [if_congr hiff rfl rfl]
      rw [Finset.sum_congr rfl hcond,
        Finset.sum_ite_eq' (Finset.range 9) m (fun _ => dq),
        if_pos (Finset.mem_range.mpr hm9), if_pos hlt]

/-- C8: with non-negative start times, the nine bin activities sum to the
total duration of exactly those segments whose start time is strictly less
than the maximum end time; a segment starting exactly at the maximum end
time is counted in no bin. -/
theorem activity_sum_partition_spec :
    ∀ d : MeetingData, d.segments ≠ [] →
      (∀ s ∈ d.segments, 0 ≤ s.start_time) →
      ∃ act peak,
        analyze_temporal_patterns d = .ok act peak "stable" ∧
        act.sum = ((d.segments.filter (fun s =>
          decide (s.start_time < maxEndTime d.segments))).map
            (fun s => s.duration)).sum := by
  intro d h hstart
  have hnB : d.segments.isEmpty = false := by
    cases hs : d.segments with
    | nil => exact absurd hs h
    | cons a l => rfl
  have hact : analyze_temporal_patterns d = .ok (activityByTime d.segments)
      ((timeBins d.segments).getD (argmaxIdx (activityByTime d.segments)) 0) "stable" := by
    simp only [analyze_temporal_patterns, hnB, Bool.false_eq_true, if_false]
  refine ⟨_, _, hact, ?_⟩
  have h1 : (activityByTime d.segments).sum =
      ∑ i in Finset.range 9, binActivity d.segments
        ((timeBins d.segments).getD i 0) ((timeBins d.segments).getD (i + 1) 0) := by
    rw [activityByTime, list_range_map_sum]
  rw [h1]
  have h2 : ∀ i ∈ Finset.range 9,
      binActivity d.segments ((timeBins d.segments).getD i 0)
          ((timeBins d.segments).getD (i + 1) 0) =
        (d.segments.map (fun s =>
          if (i : ℚ) * maxEndTime d.segments / 9 ≤ s.start_time ∧
              s.start_time < ((i : ℚ) + 1) * maxEndTime d.segments / 9 then
            s.duration else 0)).sum := by
    intro i hi
    have hi9 := Finset.mem_range.mp hi
    rw [timeBins_getD _ i (by omega), timeBins_getD _ (i + 1) (by omega)]
    have hc : ((i + 1 : ℕ) : ℚ) = (i : ℚ) + 1 := by push_cast; ring
    rw [hc, binActivity, filter_decide_map_sum]
  rw [Finset.sum_congr rfl h2, sum_swap_list_finset]
  have h3 : ∀ s ∈ d.segments,
      (∑ i in Finset.range 9,
        if (i : ℚ) * maxEndTime d.segments / 9 ≤ s.start_time ∧
            s.start_time < ((i : ℚ) + 1) * maxEndTime d.segments / 9 then
          s.duration else 0) =
        if s.start_time < maxEndTime d.segments then s.duration else 0 :=
    fun s hs => bin_indicator_sum (maxEndTime d.segments) s.start_time s.duration
      (hstart s hs)
  rw [List.map_congr_left h3, ← filter_decide_map_sum]

/-- Witness for C8: the worked example record; both segments start before
the maximum end time. -/
theorem activity_sum_partition_spec_witness :
    ∃ act peak,
      analyze_temporal_patterns exampleMeetingData = .ok act peak "stable" ∧
      act.sum = ((exampleMeetingData.segments.filter (fun s =>
        decide (s.start_time < maxEndTime exampleMeetingData.segments))).map
          (fun s => s.duration)).sum :=
  activity_sum_partition_spec exampleMeetingData (by decide) (by decide)
